import Mathlib

/-!
Verification of `throttler.go` (package `throttler`): a keyed rate limiter
with a per-key last-allowed-time table, a strict-`<` suppression rule and an
amortized opportunistic sweep.

The Go code is embedded shallowly: the map `map[interface{}]time.Time`
becomes an association list `List (K × Int)` over an arbitrary key type `K`
with decidable equality, `time.Time` / `time.Duration` become `Int`
(nanoseconds), and `time.Since(x)` at current instant `now` is `now - x`.
Each `Allow` call takes the current time `now` as an explicit argument and
returns the boolean result together with the successor state.
-/

namespace Throttle

variable {K : Type} [DecidableEq K]

/-- `valueMap[k]` of the Go map: the timestamp stored for `k`, if any. -/
def lookupVal : List (K × Int) → K → Option Int
  | [], _ => none
  | (k', ts) :: rest, k => if k' = k then some ts else lookupVal rest k

/-- `valueMap[k] = ts` of the Go map: overwrite the entry for `k`, or append it. -/
def insertVal : List (K × Int) → K → Int → List (K × Int)
  | [], k, ts => [(k, ts)]
  | (k', ts') :: rest, k, ts =>
      if k' = k then (k, ts) :: rest else (k', ts') :: insertVal rest k ts

/-- The state of the Go `throttler` struct (the mutex is not modelled:
every call runs inside the single critical section). -/
structure throttler (K : Type) where
  valueMap : List (K × Int)
  throttle : Int
  cleanup : Int
  lastClean : Int

/-- `NewThrottler(throttle, cleanup)` at construction instant `now`
(Go line 26-33): empty map, `lastClean = time.Now()`. -/
def NewThrottler (throttle cleanup now : Int) : throttler K :=
  { valueMap := [], throttle := throttle, cleanup := cleanup, lastClean := now }

/-- The guard of the opportunistic sweep, Go line 44:
`time.Since(t.lastClean) > t.cleanup`. -/
def sweepRuns (t : throttler K) (now : Int) : Bool :=
  decide (now - t.lastClean > t.cleanup)

/-- The sweep body, Go lines 45-49: delete every entry whose age exceeds the
throttle window (kept iff not `now - lastTime > throttle`). -/
def sweepMap (now throttle : Int) (m : List (K × Int)) : List (K × Int) :=
  m.filter (fun p => ! decide (now - p.2 > throttle))

/-- Go lines 43-51: the state after the opportunistic cleanup step of an
`Allow` call at instant `now`. -/
def afterSweep (t : throttler K) (now : Int) : throttler K :=
  if sweepRuns t now then
    { t with valueMap := sweepMap now t.throttle t.valueMap, lastClean := now }
  else t

/-- `Allow(value)`, Go lines 39-60, at current instant `now`: opportunistic
sweep, then the decision (`ok && time.Since(lastTime) < t.throttle` returns
`false`), else admit (`t.valueMap[value] = time.Now(); return true`). -/
def Allow (t : throttler K) (now : Int) (value : K) : Bool × throttler K :=
  let t1 := afterSweep t now
  match lookupVal t1.valueMap value with
  | some lastTime =>
      if now - lastTime < t1.throttle then
        (false, t1)
      else
        (true, { t1 with valueMap := insertVal t1.valueMap value now })
  | none => (true, { t1 with valueMap := insertVal t1.valueMap value now })

/-- Run a sequence of calls `(now, key)`, returning the final state. -/
def runState (t : throttler K) : List (Int × K) → throttler K
  | [] => t
  | (now, v) :: rest => runState (Allow t now v).2 rest

/-- Run a sequence of calls `(now, key)`, returning the booleans returned. -/
def runAllow (t : throttler K) : List (Int × K) → List Bool
  | [] => []
  | (now, v) :: rest => (Allow t now v).1 :: runAllow (Allow t now v).2 rest

/-- Modelled from the spec: the reference throttler that never evicts —
only the per-key table and the window, with `Allow`'s decision rule but no
sweep ("a reference implementation that never evicts entries"). -/
structure refThrottler (K : Type) where
  valueMap : List (K × Int)
  throttle : Int

/-- Modelled from the spec: `Allow` of the never-evicting reference
implementation — the decision and admit steps only. -/
def AllowRef (t : refThrottler K) (now : Int) (value : K) : Bool × refThrottler K :=
  match lookupVal t.valueMap value with
  | some lastTime =>
      if now - lastTime < t.throttle then
        (false, t)
      else
        (true, { t with valueMap := insertVal t.valueMap value now })
  | none => (true, { t with valueMap := insertVal t.valueMap value now })

/-- Booleans returned by a call sequence against the reference implementation. -/
def runAllowRef (t : refThrottler K) : List (Int × K) → List Bool
  | [] => []
  | (now, v) :: rest => (AllowRef t now v).1 :: runAllowRef (AllowRef t now v).2 rest

/-- Call instants are non-decreasing and bounded below by `T` (real time
moves forward across successive calls). -/
def timesMono (T : Int) : List (Int × K) → Prop
  | [] => True
  | (now, _) :: rest => T ≤ now ∧ timesMono now rest

/-- The Go map invariant: at most one entry per key. -/
def keysNodup (m : List (K × Int)) : Prop :=
  (m.map Prod.fst).Nodup

/-- The simulation relation between the sweeping throttler's map `mi` and the
never-evicting reference map `mr`: every key either has the same entry in
both, or is evicted in `mi` while its reference entry is already older than
the window `w` at every instant from `T` on. -/
def evictedOK (T w : Int) (mi mr : List (K × Int)) : Prop :=
  ∀ k : K, lookupVal mi k = lookupVal mr k ∨
    (lookupVal mi k = none ∧ ∃ ts, lookupVal mr k = some ts ∧ T - ts > w)

theorem lookupVal_insertVal_self (m : List (K × Int)) (k : K) (ts : Int) :
    lookupVal (insertVal m k ts) k = some ts := by
  induction m with
  | nil => simp [insertVal, lookupVal]
  | cons p rest ih =>
      obtain ⟨k', ts'⟩ := p
      by_cases h : k' = k
      · simp [insertVal, h, lookupVal]
      · simp [insertVal, h, lookupVal, ih]

theorem lookupVal_insertVal_ne (m : List (K × Int)) (k j : K) (ts : Int) (h : j ≠ k) :
    lookupVal (insertVal m k ts) j = lookupVal m j := by
  have hkj : k ≠ j := fun e => h e.symm
  induction m with
  | nil => simp [insertVal, lookupVal, hkj]
  | cons p rest ih =>
      obtain ⟨k', ts'⟩ := p
      by_cases hk : k' = k
      · subst hk
        simp [insertVal, lookupVal, hkj]
      · simp [insertVal, hk, lookupVal, ih]

theorem lookupVal_some_mem {m : List (K × Int)} {k : K} {ts : Int}
    (h : lookupVal m k = some ts) : (k, ts) ∈ m := by
  induction m with
  | nil => simp [lookupVal] at h
  | cons p rest ih =>
      obtain ⟨k', ts'⟩ := p
      by_cases hk : k' = k
      · subst hk
        simp [lookupVal] at h
        simp [h]
      · simp [lookupVal, hk] at h
        exact List.mem_cons_of_mem _ (ih h)

theorem lookupVal_none_iff {m : List (K × Int)} {k : K} :
    lookupVal m k = none ↔ ∀ ts : Int, (k, ts) ∉ m := by
  induction m with
  | nil => simp [lookupVal]
  | cons p rest ih =>
      obtain ⟨k', ts'⟩ := p
      by_cases hk : k' = k
      · subst hk
        constructor
        · intro h
          simp [lookupVal] at h
        · intro h
          exact absurd (List.mem_cons_self _ _) (h ts')
      · constructor
        · intro h ts hmem
          rcases List.mem_cons.1 hmem with hmem | hmem
          · exact hk (congrArg Prod.fst hmem).symm
          · exact (ih.1 (by simpa [lookupVal, hk] using h)) ts hmem
        · intro h
          have htail : lookupVal rest k = none :=
            ih.2 (fun ts hmem => h ts (List.mem_cons_of_mem _ hmem))
          simpa [lookupVal, hk] using htail

theorem lookupVal_filter_none {m : List (K × Int)} {k : K}
    (p : K × Int → Bool) (h : lookupVal m k = none) :
    lookupVal (m.filter p) k = none := by
  rw [lookupVal_none_iff] at h ⊢
  intro ts hmem
  exact h ts (List.mem_filter.1 hmem).1

theorem lookupVal_filter_some {m : List (K × Int)} {k : K} {ts : Int}
    (p : K × Int → Bool) (h : lookupVal m k = some ts) (hp : p (k, ts) = true) :
    lookupVal (m.filter p) k = some ts := by
  induction m with
  | nil => simp [lookupVal] at h
  | cons q rest ih =>
      obtain ⟨k', ts'⟩ := q
      by_cases hk : k' = k
      · subst hk
        simp [lookupVal] at h
        subst h
        simp [List.filter_cons, hp, lookupVal]
      · simp [lookupVal, hk] at h
        by_cases hq : p (k', ts') = true
        · simp [List.filter_cons, hq, lookupVal, hk, ih h]
        · simp [List.filter_cons, hq, ih h]

theorem mem_lookupVal {m : List (K × Int)} {k : K} {ts : Int}
    (hnd : keysNodup m) (h : (k, ts) ∈ m) : lookupVal m k = some ts := by
  induction m with
  | nil => simp at h
  | cons q rest ih =>
      obtain ⟨k', ts'⟩ := q
      rcases List.mem_cons.1 h with h | h
      · obtain ⟨h1, h2⟩ := Prod.mk.injEq .. ▸ h.symm
        simp [lookupVal, h1.symm, h2.symm]
      · have hk : k' ≠ k := by
          intro e
          subst e
          have : k' ∈ rest.map Prod.fst := List.mem_map.2 ⟨(k', ts), h, rfl⟩
          exact (List.nodup_cons.1 hnd).1 this
        simp [lookupVal, hk]
        exact ih (List.nodup_cons.1 hnd).2 h

theorem lookupVal_filter_none_of_dropped {m : List (K × Int)} {k : K} {ts : Int}
    (p : K × Int → Bool) (hnd : keysNodup m)
    (h : lookupVal m k = some ts) (hp : p (k, ts) = false) :
    lookupVal (m.filter p) k = none := by
  rw [lookupVal_none_iff]
  intro ts' hmem
  have hmem' := List.mem_filter.1 hmem
  have := mem_lookupVal hnd hmem'.1
  rw [h] at this
  obtain rfl : ts = ts' := Option.some.injEq .. ▸ this
  rw [hp] at hmem'
  exact Bool.false_ne_true hmem'.2

omit [DecidableEq K] in
theorem keysNodup_filter (p : K × Int → Bool) {m : List (K × Int)}
    (hnd : keysNodup m) : keysNodup (m.filter p) :=
  List.Nodup.sublist ((List.filter_sublist m).map Prod.fst) hnd

theorem mem_keys_insertVal {m : List (K × Int)} {k j : K} {ts : Int}
    (h : j ∈ (insertVal m k ts).map Prod.fst) :
    j ∈ m.map Prod.fst ∨ j = k := by
  induction m with
  | nil =>
      simp [insertVal] at h
      exact Or.inr h
  | cons q rest ih =>
      obtain ⟨k', ts'⟩ := q
      by_cases hk : k' = k
      · subst hk
        simp only [insertVal, if_true, eq_self_iff_true] at h
        rw [List.map_cons] at h
        rcases List.mem_cons.1 h with h' | h'
        · exact Or.inr h'
        · exact Or.inl (List.mem_cons_of_mem _ h')
      · simp only [insertVal] at h
        rw [if_neg hk, List.map_cons] at h
        rcases List.mem_cons.1 h with h' | h'
        · exact Or.inl (h' ▸ List.mem_cons_self _ _)
        · rcases ih h' with h'' | h''
          · exact Or.inl (List.mem_cons_of_mem _ h'')
          · exact Or.inr h''

theorem keysNodup_insertVal {m : List (K × Int)} (k : K) (ts : Int)
    (hnd : keysNodup m) : keysNodup (insertVal m k ts) := by
  induction m with
  | nil => simp [insertVal, keysNodup]
  | cons q rest ih =>
      obtain ⟨k', ts'⟩ := q
      have hnd0 : (k' :: rest.map Prod.fst).Nodup := hnd
      have hnd' := List.nodup_cons.1 hnd0
      by_cases hk : k' = k
      · subst hk
        show keysNodup (if k' = k' then (k', ts) :: rest else _)
        rw [if_pos rfl]
        exact hnd0
      · show keysNodup (if k' = k then _ else (k', ts') :: insertVal rest k ts)
        rw [if_neg hk]
        show (k' :: (insertVal rest k ts).map Prod.fst).Nodup
        refine List.nodup_cons.2 ⟨?_, ih hnd'.2⟩
        intro hmem
        rcases mem_keys_insertVal hmem with h' | h'
        · exact hnd'.1 h'
        · exact hk h'

omit [DecidableEq K] in
@[simp] theorem afterSweep_throttle (t : throttler K) (now : Int) :
    (afterSweep t now).throttle = t.throttle := by
  unfold afterSweep
  split <;> rfl

omit [DecidableEq K] in
@[simp] theorem afterSweep_cleanup (t : throttler K) (now : Int) :
    (afterSweep t now).cleanup = t.cleanup := by
  unfold afterSweep
  split <;> rfl

omit [DecidableEq K] in
theorem afterSweep_of_runs {t : throttler K} {now : Int} (h : sweepRuns t now = true) :
    afterSweep t now =
      { t with valueMap := sweepMap now t.throttle t.valueMap, lastClean := now } := by
  simp [afterSweep, h]

omit [DecidableEq K] in
theorem afterSweep_of_not_runs {t : throttler K} {now : Int} (h : sweepRuns t now = false) :
    afterSweep t now = t := by
  simp [afterSweep, h]

omit [DecidableEq K] in
theorem mem_sweepMap {now w : Int} {m : List (K × Int)} {k : K} {ts : Int} :
    (k, ts) ∈ sweepMap now w m ↔ (k, ts) ∈ m ∧ ¬ now - ts > w := by
  simp [sweepMap, List.mem_filter]

theorem lookupVal_sweepMap_none {now w : Int} {m : List (K × Int)} {k : K}
    (h : lookupVal m k = none) : lookupVal (sweepMap now w m) k = none :=
  lookupVal_filter_none _ h

theorem lookupVal_sweepMap_kept {now w : Int} {m : List (K × Int)} {k : K} {ts : Int}
    (h : lookupVal m k = some ts) (hc : ¬ now - ts > w) :
    lookupVal (sweepMap now w m) k = some ts :=
  lookupVal_filter_some _ h (by simp [hc])

theorem lookupVal_sweepMap_dropped {now w : Int} {m : List (K × Int)} {k : K} {ts : Int}
    (hnd : keysNodup m) (h : lookupVal m k = some ts) (hc : now - ts > w) :
    lookupVal (sweepMap now w m) k = none :=
  lookupVal_filter_none_of_dropped _ hnd h (by simp [hc])

omit [DecidableEq K] in
theorem mem_afterSweep {t : throttler K} {now : Int} {k : K} {ts : Int}
    (h : (k, ts) ∈ (afterSweep t now).valueMap) : (k, ts) ∈ t.valueMap := by
  unfold afterSweep at h
  split at h
  · exact (mem_sweepMap.1 h).1
  · exact h

theorem lookupVal_afterSweep_none {t : throttler K} {now : Int} {k : K}
    (h : lookupVal t.valueMap k = none) :
    lookupVal (afterSweep t now).valueMap k = none := by
  unfold afterSweep
  split
  · exact lookupVal_sweepMap_none h
  · exact h

omit [DecidableEq K] in
theorem keysNodup_afterSweep {t : throttler K} {now : Int}
    (hnd : keysNodup t.valueMap) : keysNodup (afterSweep t now).valueMap := by
  unfold afterSweep
  split
  · exact keysNodup_filter _ hnd
  · exact hnd

theorem Allow_eq_of_lookup_some {t : throttler K} {now : Int} {v : K} {ts : Int}
    (h : lookupVal (afterSweep t now).valueMap v = some ts) :
    Allow t now v =
      if now - ts < t.throttle then (false, afterSweep t now)
      else (true, { afterSweep t now with
                      valueMap := insertVal (afterSweep t now).valueMap v now }) := by
  simp only [Allow, h, afterSweep_throttle]

theorem Allow_eq_of_lookup_none {t : throttler K} {now : Int} {v : K}
    (h : lookupVal (afterSweep t now).valueMap v = none) :
    Allow t now v =
      (true, { afterSweep t now with
                 valueMap := insertVal (afterSweep t now).valueMap v now }) := by
  simp only [Allow, h]

@[simp] theorem Allow_snd_throttle (t : throttler K) (now : Int) (v : K) :
    (Allow t now v).2.throttle = t.throttle := by
  rcases h : lookupVal (afterSweep t now).valueMap v with _ | ts
  · rw [Allow_eq_of_lookup_none h]
    simp
  · rw [Allow_eq_of_lookup_some h]
    split <;> simp

@[simp] theorem AllowRef_snd_throttle (tr : refThrottler K) (now : Int) (v : K) :
    (AllowRef tr now v).2.throttle = tr.throttle := by
  rcases h : lookupVal tr.valueMap v with _ | ts
  · simp [AllowRef, h]
  · simp only [AllowRef, h]
    split <;> rfl

theorem keysNodup_Allow {t : throttler K} (now : Int) (v : K)
    (hnd : keysNodup t.valueMap) : keysNodup (Allow t now v).2.valueMap := by
  have hnd1 : keysNodup (afterSweep t now).valueMap := keysNodup_afterSweep hnd
  rcases h : lookupVal (afterSweep t now).valueMap v with _ | ts
  · rw [Allow_eq_of_lookup_none h]
    exact keysNodup_insertVal _ _ hnd1
  · rw [Allow_eq_of_lookup_some h]
    split
    · exact hnd1
    · exact keysNodup_insertVal _ _ hnd1

theorem evictedOK_insertVal {mi mr : List (K × Int)} {T w : Int}
    (hrel : evictedOK T w mi mr) (v : K) (now : Int) :
    evictedOK T w (insertVal mi v now) (insertVal mr v now) := by
  intro k
  by_cases hk : k = v
  · subst hk
    left
    rw [lookupVal_insertVal_self, lookupVal_insertVal_self]
  · rw [lookupVal_insertVal_ne _ _ _ _ hk, lookupVal_insertVal_ne _ _ _ _ hk]
    exact hrel k

theorem evictedOK_afterSweep {t : throttler K} {tr : refThrottler K} {T now : Int}
    (hw : t.throttle = tr.throttle) (hnd : keysNodup t.valueMap)
    (hrel : evictedOK T tr.throttle t.valueMap tr.valueMap) (hT : T <= now) :
    evictedOK now tr.throttle (afterSweep t now).valueMap tr.valueMap := by
  intro k
  by_cases hs : sweepRuns t now = true
  · have hmap : (afterSweep t now).valueMap = sweepMap now t.throttle t.valueMap := by
      rw [afterSweep_of_runs hs]
    rcases hrel k with h | ⟨h1, ts, h2, h3⟩
    · rcases hl : lookupVal t.valueMap k with _ | ts
      · left
        rw [hmap, lookupVal_sweepMap_none hl, ← h, hl]
      · by_cases hc : now - ts > t.throttle
        · right
          refine ⟨?_, ts, ?_, ?_⟩
          · rw [hmap]
            exact lookupVal_sweepMap_dropped hnd hl hc
          · rw [← h, hl]
          · omega
        · left
          rw [hmap, lookupVal_sweepMap_kept hl hc, ← h, hl]
    · right
      refine ⟨?_, ts, h2, by omega⟩
      rw [hmap]
      exact lookupVal_sweepMap_none h1
  · have hmap : afterSweep t now = t :=
      afterSweep_of_not_runs (by simpa using hs)
    rcases hrel k with h | ⟨h1, ts, h2, h3⟩
    · left
      rw [hmap]
      exact h
    · right
      refine ⟨?_, ts, h2, by omega⟩
      rw [hmap]
      exact h1

theorem Allow_step_ref (t : throttler K) (tr : refThrottler K) (T now : Int) (v : K)
    (hw : t.throttle = tr.throttle) (hnd : keysNodup t.valueMap)
    (hrel : evictedOK T tr.throttle t.valueMap tr.valueMap) (hT : T <= now) :
    (Allow t now v).1 = (AllowRef tr now v).1 ∧
    evictedOK now tr.throttle (Allow t now v).2.valueMap (AllowRef tr now v).2.valueMap := by
  have hrel1 := evictedOK_afterSweep hw hnd hrel hT
  rcases hrel1 v with h | ⟨h1, ts, h2, h3⟩
  · rcases hl : lookupVal tr.valueMap v with _ | ts
    · rw [hl] at h
      rw [Allow_eq_of_lookup_none h]
      simp only [AllowRef, hl]
      exact ⟨by simp, evictedOK_insertVal hrel1 v now⟩
    · rw [hl] at h
      rw [Allow_eq_of_lookup_some h]
      simp only [AllowRef, hl]
      by_cases hc : now - ts < tr.throttle
      · rw [if_pos (hw ▸ hc), if_pos hc]
        exact ⟨by simp, hrel1⟩
      · rw [if_neg (hw ▸ hc), if_neg hc]
        exact ⟨by simp, evictedOK_insertVal hrel1 v now⟩
  · rw [Allow_eq_of_lookup_none h1]
    simp only [AllowRef, h2]
    have hc : ¬ now - ts < tr.throttle := by omega
    rw [if_neg hc]
    exact ⟨by simp, evictedOK_insertVal hrel1 v now⟩

theorem runAllow_eq_runAllowRef (calls : List (Int × K)) :
    ∀ (t : throttler K) (tr : refThrottler K) (T : Int),
      t.throttle = tr.throttle → keysNodup t.valueMap →
      evictedOK T tr.throttle t.valueMap tr.valueMap → timesMono T calls →
      runAllow t calls = runAllowRef tr calls := by
  induction calls with
  | nil =>
      intro t tr T _ _ _ _
      rfl
  | cons c rest ih =>
      obtain ⟨now, v⟩ := c
      intro t tr T hw hnd hrel hmono
      obtain ⟨hTn, hrest⟩ := hmono
      obtain ⟨hb, hrel'⟩ := Allow_step_ref t tr T now v hw hnd hrel hTn
      have hw' : (Allow t now v).2.throttle = (AllowRef tr now v).2.throttle := by
        rw [Allow_snd_throttle, AllowRef_snd_throttle, hw]
      have hrel'' : evictedOK now (AllowRef tr now v).2.throttle
          (Allow t now v).2.valueMap (AllowRef tr now v).2.valueMap := by
        rw [AllowRef_snd_throttle]
        exact hrel'
      have htail := ih (Allow t now v).2 (AllowRef tr now v).2 now hw'
        (keysNodup_Allow now v hnd) hrel'' hrest
      simp only [runAllow, runAllowRef, hb, htail]

theorem Allow_fst_true_of_none {t : throttler K} {now : Int} {k : K}
    (h : lookupVal t.valueMap k = none) : (Allow t now k).1 = true := by
  rw [Allow_eq_of_lookup_none (lookupVal_afterSweep_none h)]

theorem Allow_preserves_none {t : throttler K} {now : Int} {v k : K}
    (h : lookupVal t.valueMap k = none) (hvk : k ≠ v) :
    lookupVal (Allow t now v).2.valueMap k = none := by
  have h1 : lookupVal (afterSweep t now).valueMap k = none := lookupVal_afterSweep_none h
  have hins : lookupVal (insertVal (afterSweep t now).valueMap v now) k = none := by
    rw [lookupVal_insertVal_ne _ _ _ _ hvk]
    exact h1
  rcases hl : lookupVal (afterSweep t now).valueMap v with _ | ts
  · rw [Allow_eq_of_lookup_none hl]
    exact hins
  · rw [Allow_eq_of_lookup_some hl]
    split
    · exact h1
    · exact hins

theorem lookupVal_runState_none {t : throttler K} {k : K} {calls : List (Int × K)}
    (h : lookupVal t.valueMap k = none) (hc : ∀ p ∈ calls, p.2 ≠ k) :
    lookupVal (runState t calls).valueMap k = none := by
  induction calls generalizing t with
  | nil => exact h
  | cons c rest ih =>
      obtain ⟨now, v⟩ := c
      have hvk : k ≠ v := (hc (now, v) (List.mem_cons_self _ _)).symm
      exact ih (Allow_preserves_none h hvk) (fun p hp => hc p (List.mem_cons_of_mem _ hp))

theorem Allow_fst_true_of_nonpos {t : throttler K} {now : Int} {k : K}
    (hts : ∀ p ∈ t.valueMap, p.2 ≤ now) (hthr : t.throttle ≤ 0) :
    (Allow t now k).1 = true := by
  rcases h : lookupVal (afterSweep t now).valueMap k with _ | ts
  · rw [Allow_eq_of_lookup_none h]
  · have hmem := mem_afterSweep (lookupVal_some_mem h)
    have hts' : ts ≤ now := hts _ hmem
    rw [Allow_eq_of_lookup_some h, if_neg (by omega)]

/-- C1: an `Allow(key)` call returns `false` iff, at decision time (after
the opportunistic sweep of the call), an entry for the key exists whose age
is strictly less than the throttle window; in that case the state is left
exactly as the sweep left it, and in every other case the call stores the
current time for the key and returns `true`. -/
theorem allow_decision_spec (t : throttler K) (now : Int) (v : K) :
    ((Allow t now v).1 = false ↔
      ∃ ts, lookupVal (afterSweep t now).valueMap v = some ts ∧
        now - ts < t.throttle)
    ∧ ((Allow t now v).1 = false → (Allow t now v).2 = afterSweep t now)
    ∧ ((Allow t now v).1 = true →
        (Allow t now v).2 =
          { afterSweep t now with
              valueMap := insertVal (afterSweep t now).valueMap v now }) := by
  rcases h : lookupVal (afterSweep t now).valueMap v with _ | ts
  · rw [Allow_eq_of_lookup_none h]
    refine ⟨?_, ?_, fun _ => rfl⟩
    · constructor
      · intro hf
        simp at hf
      · rintro ⟨ts', h', _⟩
        cases h'
    · intro hf
      simp at hf
  · rw [Allow_eq_of_lookup_some h]
    by_cases hc : now - ts < t.throttle
    · rw [if_pos hc]
      refine ⟨?_, fun _ => rfl, ?_⟩
      · constructor
        · intro _
          exact ⟨ts, rfl, hc⟩
        · intro _
          rfl
      · intro htrue
        simp at htrue
    · rw [if_neg hc]
      refine ⟨?_, ?_, fun _ => rfl⟩
      · constructor
        · intro hf
          simp at hf
        · rintro ⟨ts', h', hc'⟩
          injection h' with e
          subst e
          exact absurd hc' hc
      · intro hf
        simp at hf

/-- C2: a key never passed to `Allow` before is allowed on its first call,
whatever the prior history of calls with other keys; in particular two
distinct fresh keys are both allowed in succession, for every window. -/
theorem fresh_key_first_allow (w c l n1 n2 : Int) (calls : List (Int × K)) (a b : K)
    (ha : ∀ p ∈ calls, p.2 ≠ a) (hb : ∀ p ∈ calls, p.2 ≠ b) (hab : a ≠ b) :
    (Allow (runState (NewThrottler w c l) calls) n1 a).1 = true ∧
    (Allow (Allow (runState (NewThrottler w c l) calls) n1 a).2 n2 b).1 = true := by
  constructor
  · exact Allow_fst_true_of_none (lookupVal_runState_none rfl ha)
  · exact Allow_fst_true_of_none
      (Allow_preserves_none (lookupVal_runState_none rfl hb) (Ne.symm hab))

/-- C2 witness: from a fresh table with one unrelated call `"x"`, the first
calls for `"a"` and then `"b"` both return `true`. -/
theorem fresh_key_first_allow_witness :
    (Allow (runState (NewThrottler (K := String) 100 10 0) [((1:Int), "x")]) 2 "a").1 = true ∧
    (Allow (Allow (runState (NewThrottler (K := String) 100 10 0) [((1:Int), "x")]) 2 "a").2
        3 "b").1 = true :=
  fresh_key_first_allow 100 10 0 2 3 [((1:Int), "x")] "a" "b"
    (by decide) (by decide) (by decide)

/-- C3: when the elapsed time since `lastClean` exceeds `cleanup`, the sweep
removes exactly the entries whose age strictly exceeds `throttle` and then
sets `lastClean` to the current time; otherwise the sweep does not run and
the state (including `lastClean`) is unchanged. -/
theorem sweep_spec (t : throttler K) (now : Int) :
    (now - t.lastClean > t.cleanup →
      ((afterSweep t now).lastClean = now ∧
        ∀ (k : K) (ts : Int),
          ((k, ts) ∈ (afterSweep t now).valueMap ↔
            (k, ts) ∈ t.valueMap ∧ ¬ now - ts > t.throttle)))
    ∧ (¬ now - t.lastClean > t.cleanup → afterSweep t now = t) := by
  constructor
  · intro h
    have hs : sweepRuns t now = true := by
      simp [sweepRuns]
      omega
    rw [afterSweep_of_runs hs]
    exact ⟨rfl, fun k ts => mem_sweepMap⟩
  · intro h
    refine afterSweep_of_not_runs ?_
    simp [sweepRuns]
    omega

/-- C4: an entry whose age equals the window exactly is neither swept (the
sweep's eviction check uses strict `>`) nor suppressed (the decision check
uses strict `<`): the entry survives the sweep and the call returns `true`. -/
theorem boundary_age_not_throttled (t : throttler K) (now : Int) (k : K) (ts : Int)
    (h : lookupVal t.valueMap k = some ts) (hage : now - ts = t.throttle) :
    lookupVal (afterSweep t now).valueMap k = some ts ∧ (Allow t now k).1 = true := by
  have hkeep : lookupVal (afterSweep t now).valueMap k = some ts := by
    by_cases hs : sweepRuns t now = true
    · rw [afterSweep_of_runs hs]
      exact lookupVal_sweepMap_kept h (by omega)
    · rw [afterSweep_of_not_runs (by simpa using hs)]
      exact h
  refine ⟨hkeep, ?_⟩
  rw [Allow_eq_of_lookup_some hkeep, if_neg (by omega)]

/-- C4 witness: the entry `("k", 0)` aged exactly the window `5` at instant
`5` survives the sweep and is allowed again. -/
theorem boundary_age_not_throttled_witness :
    lookupVal (afterSweep (⟨[("k", 0)], 5, 10, 0⟩ : throttler String) 5).valueMap "k"
        = some 0 ∧
    (Allow (⟨[("k", 0)], 5, 10, 0⟩ : throttler String) 5 "k").1 = true :=
  boundary_age_not_throttled (⟨[("k", 0)], 5, 10, 0⟩ : throttler String) 5 "k" 0
    (by decide) (by decide)

/-- C5: eviction is observationally invisible in `Allow`'s return values:
over any call sequence whose instants move forward in real time, a fresh
sweeping throttler returns exactly the booleans of the never-evicting
reference implementation with the same window. -/
theorem eviction_invisible (w c l T : Int) (calls : List (Int × K))
    (hmono : timesMono T calls) :
    runAllow (NewThrottler w c l) calls = runAllowRef ⟨[], w⟩ calls :=
  runAllow_eq_runAllowRef calls (NewThrottler w c l) ⟨[], w⟩ T rfl
    (by simp [NewThrottler, keysNodup])
    (fun _ => Or.inl rfl) hmono

/-- C5 witness: `throttleWindow = 200`, `cleanupInterval = 10`, repeated
calls for `"k"`: the sweeping and the never-evicting runs agree. -/
theorem eviction_invisible_witness :
    runAllow (NewThrottler (K := String) 200 10 0)
        [((0:Int), "k"), (5, "k"), (12, "k"), (300, "k")]
      = runAllowRef (⟨[], 200⟩ : refThrottler String)
        [((0:Int), "k"), (5, "k"), (12, "k"), (300, "k")] :=
  eviction_invisible 200 10 0 0 _ (by norm_num [timesMono])

/-- C6 counterexample: with `cleanup = 0` and zero elapsed time since
`lastClean` the sweep is skipped, not run: the entry `("k", 0)`, already
older than the window (`10 - 0 > 5`), survives the `Allow` call. -/
theorem degenerate_durations_cex :
    (⟨[("k", 0)], 5, 0, 10⟩ : throttler String).cleanup ≤ 0 ∧
    (10:Int) - 0 > (⟨[("k", 0)], 5, 0, 10⟩ : throttler String).throttle ∧
    sweepRuns (⟨[("k", 0)], 5, 0, 10⟩ : throttler String) 10 = false ∧
    (Allow (⟨[("k", 0)], 5, 0, 10⟩ : throttler String) 10 "x").2.valueMap
      = [("k", 0), ("x", 10)] := by
  decide

/-- C6 (amended): zero or negative durations are legal and degenerate —
with `throttle ≤ 0` every call returns `true` (call instants being no
earlier than the stored timestamps); with `cleanup ≤ 0` the sweep runs on
every call at which strictly positive time has elapsed since `lastClean`,
and with `cleanup < 0` also at zero elapsed time; with `cleanup = 0` and
exactly zero elapsed time the sweep is skipped. -/
theorem degenerate_durations (t : throttler K) (now : Int) (k : K)
    (hts : ∀ p ∈ t.valueMap, p.2 ≤ now) :
    (t.throttle ≤ 0 → (Allow t now k).1 = true)
    ∧ (t.cleanup ≤ 0 → 0 < now - t.lastClean → sweepRuns t now = true)
    ∧ (t.cleanup < 0 → 0 ≤ now - t.lastClean → sweepRuns t now = true)
    ∧ (t.cleanup = 0 → now = t.lastClean → sweepRuns t now = false) := by
  refine ⟨fun h => Allow_fst_true_of_nonpos hts h, ?_, ?_, ?_⟩
  · intro h1 h2
    simp [sweepRuns]
    omega
  · intro h1 h2
    simp [sweepRuns]
    omega
  · intro h1 h2
    simp [sweepRuns]
    omega

/-- C6 witness: with `throttle = -1` and `cleanup = -1`, one unit after
`lastClean`, the call for the already-stored key `"k"` is allowed and the
sweep guard holds. -/
theorem degenerate_durations_witness :
    ((⟨[("k", 2)], -1, -1, 5⟩ : throttler String).throttle ≤ 0 →
      (Allow (⟨[("k", 2)], -1, -1, 5⟩ : throttler String) 6 "k").1 = true)
    ∧ ((⟨[("k", 2)], -1, -1, 5⟩ : throttler String).cleanup ≤ 0 →
        0 < 6 - (⟨[("k", 2)], -1, -1, 5⟩ : throttler String).lastClean →
        sweepRuns (⟨[("k", 2)], -1, -1, 5⟩ : throttler String) 6 = true)
    ∧ ((⟨[("k", 2)], -1, -1, 5⟩ : throttler String).cleanup < 0 →
        0 ≤ 6 - (⟨[("k", 2)], -1, -1, 5⟩ : throttler String).lastClean →
        sweepRuns (⟨[("k", 2)], -1, -1, 5⟩ : throttler String) 6 = true)
    ∧ ((⟨[("k", 2)], -1, -1, 5⟩ : throttler String).cleanup = 0 →
        (6:Int) = (⟨[("k", 2)], -1, -1, 5⟩ : throttler String).lastClean →
        sweepRuns (⟨[("k", 2)], -1, -1, 5⟩ : throttler String) 6 = false) :=
  degenerate_durations (⟨[("k", 2)], -1, -1, 5⟩ : throttler String) 6 "k" (by decide)

/-- C7: stored timestamps are monotonically non-decreasing for each key:
after an `Allow` call at an instant `now` no earlier than the stored
timestamp, the key's entry holds a timestamp `≥` the previous one, and when
the call returned `true` it holds exactly `now`. -/
theorem timestamp_monotone (t : throttler K) (now : Int) (k : K) (ts : Int)
    (hnd : keysNodup t.valueMap) (h : lookupVal t.valueMap k = some ts)
    (hts : ts ≤ now) :
    ∃ ts', lookupVal (Allow t now k).2.valueMap k = some ts' ∧ ts ≤ ts' ∧
      ((Allow t now k).1 = true → ts' = now) := by
  have hdisj : lookupVal (afterSweep t now).valueMap k = some ts ∨
      lookupVal (afterSweep t now).valueMap k = none := by
    by_cases hs : sweepRuns t now = true
    · rw [afterSweep_of_runs hs]
      by_cases hc : now - ts > t.throttle
      · exact Or.inr (lookupVal_sweepMap_dropped hnd h hc)
      · exact Or.inl (lookupVal_sweepMap_kept h hc)
    · rw [afterSweep_of_not_runs (by simpa using hs)]
      exact Or.inl h
  rcases hdisj with h1 | h1
  · rw [Allow_eq_of_lookup_some h1]
    by_cases hc : now - ts < t.throttle
    · rw [if_pos hc]
      exact ⟨ts, h1, le_refl ts, by simp⟩
    · rw [if_neg hc]
      exact ⟨now, lookupVal_insertVal_self _ _ _, hts, fun _ => rfl⟩
  · rw [Allow_eq_of_lookup_none h1]
    exact ⟨now, lookupVal_insertVal_self _ _ _, hts, fun _ => rfl⟩

/-- C7 witness: the entry `("k", 1)` at instant `3` keeps a timestamp `≥ 1`,
equal to `3` if the call was allowed. -/
theorem timestamp_monotone_witness :
    ∃ ts', lookupVal (Allow (⟨[("k", 1)], 5, 10, 0⟩ : throttler String) 3 "k").2.valueMap "k"
        = some ts' ∧ (1:Int) ≤ ts' ∧
      ((Allow (⟨[("k", 1)], 5, 10, 0⟩ : throttler String) 3 "k").1 = true → ts' = 3) :=
  timestamp_monotone (⟨[("k", 1)], 5, 10, 0⟩ : throttler String) 3 "k" 1
    (by simp [keysNodup]) (by decide) (by decide)

/-- C8: `Allow` is total and cannot fail: on every state, key and instant it
evaluates to a boolean paired with a successor state; there is no error
outcome anywhere in its body. -/
theorem Allow_total (t : throttler K) (now : Int) (v : K) :
    ∃ (b : Bool) (t' : throttler K),
      Allow t now v = (b, t') ∧ (b = true ∨ b = false) :=
  ⟨(Allow t now v).1, (Allow t now v).2, rfl, by
    rcases (Allow t now v).1 with _ | _
    · exact Or.inr rfl
    · exact Or.inl rfl⟩

/-- C10: immediately after a sweep's scan completes, every entry still in
the table has age at most the throttle window. -/
theorem sweep_postcondition (t : throttler K) (now : Int)
    (h : now - t.lastClean > t.cleanup) :
    ∀ (k : K) (ts : Int), (k, ts) ∈ (afterSweep t now).valueMap →
      now - ts ≤ t.throttle := by
  intro k ts hmem
  have hs : sweepRuns t now = true := by
    simp [sweepRuns]
    omega
  rw [afterSweep_of_runs hs] at hmem
  have h2 := (mem_sweepMap.1 hmem).2
  omega

/-- C10 witness: after the sweep at instant `10`, the surviving entry
`("b", 8)` has age `2 ≤ 5`. -/
theorem sweep_postcondition_witness : (10:Int) - 8 ≤ 5 :=
  sweep_postcondition (⟨[("a", 0), ("b", 8)], 5, 1, 0⟩ : throttler String) 10
    (by decide) "b" 8 (by decide)

end Throttle
